import Mathlib

/-!
Shallow embedding of `rectangles.py` (class `Rectangles` of the qpageview
package): a spatial index over axis-aligned rectangles.  Objects are opaque
identities, modelled as natural numbers; coordinates are exact numbers,
modelled as rationals (the Python source only ever divides by 2, which is
exact).  The Python dict `self._items` is an insertion-ordered association
list; the dict `self._index` maps the four sides 0..3 to optional cached
side indexes, each being a pair of parallel lists (indices, objects).
-/

deriving instance DecidableEq for Except

namespace Rectangles

/-- Side constants of the source: `Left = 0`, `Top = 1`, `Right = 2`,
`Bottom = 3`. -/
def sideLeft : Nat := 0

/-- Side constant `Top = 1`. -/
def sideTop : Nat := 1

/-- Side constant `Right = 2`. -/
def sideRight : Nat := 2

/-- Side constant `Bottom = 3`. -/
def sideBottom : Nat := 3

/-- A rectangle as returned by `get_coords`: the 4-tuple
`(x, y, x2, y2) = (left, top, right, bottom)`. -/
structure Coords where
  left : ℚ
  top : ℚ
  right : ℚ
  bottom : ℚ
deriving DecidableEq

/-- Tuple indexing `coords[side]` of the source.  The code only ever indexes
with 0, 1, 2 or 3 (`side`, `side^2`, `side^1|2`, `side^1&2` for a side in
0..3 stay in 0..3), so the catch-all arm is never reached on source inputs. -/
def coord (c : Coords) : Nat → ℚ
  | 0 => c.left
  | 1 => c.top
  | 2 => c.right
  | _ => c.bottom

/-- One cached side index: the two parallel lists built or maintained by
`_sorted`, `add` and `remove` (`indices` holds the coordinates, `objects`
the objects, in the same order). -/
structure SideData where
  indices : List ℚ
  objects : List Nat
deriving DecidableEq

/-- The instance state: `_items` (insertion-ordered association list, as a
Python dict) and `_index` (the four optional cached side indexes). -/
structure RState where
  items : List (Nat × Coords)
  idx0 : Option SideData
  idx1 : Option SideData
  idx2 : Option SideData
  idx3 : Option SideData
deriving DecidableEq

/-- The freshly constructed state: `Rectangles()` with no objects. -/
def emptyState : RState := ⟨[], none, none, none, none⟩

/-- Dictionary read `self._index[side]` (as `Option`); sides outside 0..3
never occur in the source. -/
def getIdx (st : RState) : Nat → Option SideData
  | 0 => st.idx0
  | 1 => st.idx1
  | 2 => st.idx2
  | 3 => st.idx3
  | _ => none

/-- Dictionary write `self._index[side] = p`. -/
def setIdx (st : RState) (side : Nat) (p : SideData) : RState :=
  match side with
  | 0 => { st with idx0 := some p }
  | 1 => { st with idx1 := some p }
  | 2 => { st with idx2 := some p }
  | 3 => { st with idx3 := some p }
  | _ => st

/-- The keys of the item store, in dict (insertion) order. -/
def keys (items : List (Nat × Coords)) : List Nat := items.map Prod.fst

/-- Membership test `obj in self._items` (the `__contains__` method). -/
def containsObj (st : RState) (o : Nat) : Bool := (List.lookup o st.items).isSome

/-- The stored rectangle of an object, `self._items[obj]`.  On states
satisfying the index invariant every object consulted is a key of the item
store, so the default is never read there; entry points whose dict access
can actually raise (`remove`, `closest`) are modelled with `Except` instead. -/
def coordsOf (items : List (Nat × Coords)) (o : Nat) : Coords :=
  (List.lookup o items).getD ⟨0, 0, 0, 0⟩

/-- Python's `bisect.bisect_left(l, v)`: on a sorted list, the documented
insertion point such that every entry strictly below `v` is to its left and
every entry `≥ v` to its right, i.e. the length of the `< v` prefix.  The
source only ever bisects the sorted `indices` lists. -/
def bisect_left (l : List ℚ) (v : ℚ) : Nat :=
  (l.takeWhile (fun q => decide (q < v))).length

/-- Python's `bisect.bisect_right(l, v)`: on a sorted list, the insertion
point after all entries `≤ v`, i.e. the length of the `≤ v` prefix. -/
def bisect_right (l : List ℚ) (v : ℚ) : Nat :=
  (l.takeWhile (fun q => decide (q ≤ v))).length

/-- Python's built-in `abs` on exact numbers. -/
def absQ (q : ℚ) : ℚ := if q < 0 then -q else q

/-- Python's built-in two-argument `min` (returns the first argument on
ties). -/
def minQ (a b : ℚ) : ℚ := if a ≤ b then a else b

/-- Python's `list.insert(i, x)` for an in-range position. -/
def listInsert {α : Type} (l : List α) (i : Nat) (x : α) : List α :=
  l.take i ++ x :: l.drop i

/-- The lazy builder `_sorted(side)`, value part: project `(coords[side],
obj)` over the item store and stable-sort ascending by coordinate (Python's
`list.sort(key=itemgetter(0))`), then split into the two parallel lists.
On an empty item store this yields `([], [])` exactly as the source's
special case does. -/
def buildSide (items : List (Nat × Coords)) (side : Nat) : SideData :=
  let ps := (items.map (fun e => (coord e.2 side, e.1))).mergeSort
    (fun a b => decide (a.1 ≤ b.1))
  ⟨ps.map Prod.fst, ps.map Prod.snd⟩

/-- The value `_sorted(side)` returns: the cached pair when present, else
the freshly built one.  The accompanying cache write is modelled by
`ensure`; within a single query both give the same results. -/
def sortedFor (st : RState) (side : Nat) : SideData :=
  match getIdx st side with
  | some p => p
  | none => buildSide st.items side

/-- The state effect of `_sorted(side)`: on a cache miss the built pair is
stored in `self._index[side]`. -/
def ensure (st : RState) (side : Nat) : RState :=
  match getIdx st side with
  | some _ => st
  | none => setIdx st side (buildSide st.items side)

/-- The method `add(obj)`: no-op when the object is already a key of
`_items`; otherwise store `get_coords(obj)` (called once, modelled by the
pure coordinate function `f`) and insert `(coords[side], obj)` into every
currently present side index at the `bisect_left` position. -/
def add (f : Nat → Coords) (st : RState) (o : Nat) : RState :=
  if containsObj st o then st
  else
    let c := f o
    let upd : Option SideData → Nat → Option SideData := fun p side =>
      match p with
      | none => none
      | some q =>
        let i := bisect_left q.indices (coord c side)
        some ⟨listInsert q.indices i (coord c side), listInsert q.objects i o⟩
    { items := st.items ++ [(o, c)]
      idx0 := upd st.idx0 0
      idx1 := upd st.idx1 1
      idx2 := upd st.idx2 2
      idx3 := upd st.idx3 3 }

/-- One step of Python's `dict.update`: replace the value in place when the
key exists, else append the new entry. -/
def dictInsert (items : List (Nat × Coords)) (o : Nat) (c : Coords) :
    List (Nat × Coords) :=
  if (List.lookup o items).isSome then
    items.map (fun e => if e.1 = o then (o, c) else e)
  else items ++ [(o, c)]

/-- The method `bulk_add(objects)`: `self._items.update(...)` over the given
objects (coordinates recomputed via `f`), then `self._index.clear()`. -/
def bulk_add (f : Nat → Coords) (st : RState) (objs : List Nat) : RState :=
  { items := objs.foldl (fun acc o => dictInsert acc o (f o)) st.items
    idx0 := none, idx1 := none, idx2 := none, idx3 := none }

/-- Python's `del items[o]` on a dict: drop the (unique) entry with key `o`,
keeping the order of the rest. -/
def delKey (items : List (Nat × Coords)) (o : Nat) : List (Nat × Coords) :=
  items.eraseP (fun e => e.1 == o)

/-- The method `remove(obj)`: `del self._items[obj]` raises `KeyError` (the
`Except.error` arm) before any mutation when the object is unmanaged;
otherwise the entry is deleted and, for every present side index, the entry
at position `objects.index(obj)` is deleted from both parallel lists. -/
def remove (st : RState) (o : Nat) : Except Unit RState :=
  if containsObj st o then
    let del : Option SideData → Option SideData := fun p =>
      match p with
      | none => none
      | some q =>
        let i := List.indexOf o q.objects
        some ⟨q.indices.eraseIdx i, q.objects.eraseIdx i⟩
    Except.ok
      { items := delKey st.items o
        idx0 := del st.idx0
        idx1 := del st.idx1
        idx2 := del st.idx2
        idx3 := del st.idx3 }
  else Except.error ()

/-- The method `clear()`. -/
def clearAll (_st : RState) : RState := emptyState

/-- The helper `_smaller(side, value)`: `objects[:bisect_right(indices,
value)]` of the side's sorted pair. -/
def smallerFn (st : RState) (side : Nat) (v : ℚ) : List Nat :=
  let p := sortedFor st side
  p.objects.take (bisect_right p.indices v)

/-- The helper `_larger(side, value)`: `objects[bisect_left(indices,
value):]`. -/
def largerFn (st : RState) (side : Nat) (v : ℚ) : List Nat :=
  let p := sortedFor st side
  p.objects.drop (bisect_left p.indices v)

/-- Which of the two range helpers a `_test` triple names. -/
inductive Meth
  | smaller
  | larger
deriving DecidableEq

/-- Run one `(method, side, value)` test triple. -/
def runTest (st : RState) : Meth × Nat × ℚ → List Nat
  | (Meth.smaller, side, v) => smallerFn st side v
  | (Meth.larger, side, v) => largerFn st side v

/-- The loop of `_test`: intersect the running set with each remaining
test's result, stopping as soon as the running set is empty. -/
def testLoop (st : RState) : List (Meth × Nat × ℚ) → Finset ℕ → Finset ℕ
  | [], acc => acc
  | t :: ts, acc =>
    if acc ∩ (runTest st t).toFinset = ∅ then acc ∩ (runTest st t).toFinset
    else testLoop st ts (acc ∩ (runTest st t).toFinset)

/-- The helper `_test(*tests)`: the set of the first test's result and, when
non-empty, the short-circuited intersection with the remaining tests. -/
def testAll (st : RState) : List (Meth × Nat × ℚ) → Finset ℕ
  | [] => ∅
  | t :: ts =>
    let result := (runTest st t).toFinset
    if result = ∅ then result else testLoop st ts result

/-- The query `at(x, y)`. -/
def atQ (st : RState) (x y : ℚ) : Finset ℕ :=
  testAll st
    [(Meth.smaller, sideTop, y), (Meth.larger, sideBottom, y),
     (Meth.smaller, sideLeft, x), (Meth.larger, sideRight, x)]

/-- The query `inside(left, top, right, bottom)`. -/
def insideQ (st : RState) (l t r b : ℚ) : Finset ℕ :=
  testAll st
    [(Meth.larger, sideTop, t), (Meth.smaller, sideBottom, b),
     (Meth.larger, sideLeft, l), (Meth.smaller, sideRight, r)]

/-- The query `intersecting(left, top, right, bottom)`. -/
def intersectingQ (st : RState) (l t r b : ℚ) : Finset ℕ :=
  testAll st
    [(Meth.smaller, sideTop, b), (Meth.larger, sideBottom, t),
     (Meth.smaller, sideLeft, r), (Meth.larger, sideRight, l)]

/-- The `center_distance` closure of `nearest`: Manhattan distance from the
rectangle's center to the query point. -/
def centerDist (items : List (Nat × Coords)) (x y : ℚ) (o : Nat) : ℚ :=
  let c := coordsOf items o
  absQ ((c.right + c.left) / 2 - x) + absQ ((c.bottom + c.top) / 2 - y)

/-- Python's `min(objs, key=key)`: the first element of the iteration whose
key is minimal (later elements replace the best only when strictly
smaller). -/
def argminKey (key : Nat → ℚ) : List Nat → Option Nat
  | [] => none
  | a :: t =>
    some (t.foldl (fun best o => if key o < key best then o else best) a)

/-- Python's `min` over a list of `(distance, object)` tuples: lexicographic
comparison, the first minimum wins. -/
def minPairList : List (ℚ × Nat) → Option (ℚ × Nat)
  | [] => none
  | a :: t =>
    some (t.foldl (fun best pr =>
      if pr.1 < best.1 ∨ (pr.1 = best.1 ∧ pr.2 < best.2) then pr else best) a)

/-- The per-candidate-set minimum `min((dist(o), o) for o in objs)` of
`nearest`. -/
def minPairOver (dist : Nat → ℚ) (objs : List Nat) : Option (ℚ × Nat) :=
  minPairList (objs.map (fun o => (dist o, o)))

/-- The query `nearest(x, y)`.  Python iterates its hash sets in an
unspecified order; the model iterates each set in ascending object order
(`Finset.sort`), one deterministic instance of that order. -/
def nearest (st : RState) (x y : ℚ) : Option Nat :=
  let rmid := testAll st [(Meth.smaller, sideTop, y), (Meth.larger, sideBottom, y)]
  let cmid := testAll st [(Meth.smaller, sideLeft, x), (Meth.larger, sideRight, x)]
  let mid := rmid ∩ cmid
  if mid = ∅ then
    let cleft := (largerFn st sideLeft x).toFinset
    let cright := (smallerFn st sideRight x).toFinset
    let rtop := (largerFn st sideTop y).toFinset
    let rbottom := (smallerFn st sideBottom y).toFinset
    let i := st.items
    let leftD : Nat → ℚ := fun o => (coordsOf i o).left - x
    let rightD : Nat → ℚ := fun o => x - (coordsOf i o).right
    let topD : Nat → ℚ := fun o => (coordsOf i o).top - y
    let bottomD : Nat → ℚ := fun o => y - (coordsOf i o).bottom
    let pairs : List ((Nat → ℚ) × Finset ℕ) :=
      [(leftD, cleft ∩ rmid), (rightD, cright ∩ rmid),
       (topD, rtop ∩ cmid), (bottomD, rbottom ∩ cmid),
       (fun o => topD o + leftD o, cleft ∩ rtop),
       (fun o => topD o + rightD o, cright ∩ rtop),
       (fun o => bottomD o + leftD o, cleft ∩ rbottom),
       (fun o => bottomD o + rightD o, cright ∩ rbottom)]
    let result := pairs.filterMap (fun pr =>
      if pr.2 = ∅ then none else minPairOver pr.1 (pr.2.sort (· ≤ ·)))
    (minPairList result).map Prod.snd
  else argminKey (centerDist st.items x y) (mid.sort (· ≤ ·))

/-- The slice `objects[i+direction::direction]` of `closest`.  For the
forward direction this is everything after position `i`.  For the backward
direction with `i ≥ 1` it is the reversed prefix before `i`; with `i = 0`
Python's `objects[-1::-1]` wraps around and yields the whole list reversed
(a quirk the model reproduces faithfully). -/
def scanSlice (objects : List Nat) (i : Nat) (dirNeg : Bool) : List Nat :=
  if dirNeg then (if i = 0 then objects.reverse else (objects.take i).reverse)
  else objects.drop (i + 1)

/-- The per-candidate along-axis distance of `closest`:
`d = abs(pos1 - pos)` where `pos1 = coords[side^2]` of the candidate. -/
def dVal (items : List (Nat × Coords)) (side : Nat) (pos : ℚ)
    (other : Nat) : ℚ :=
  absQ (coord (coordsOf items other) (side ^^^ 2) - pos)

/-- The per-candidate lateral term of `closest`: `dlat = abs(lat1 - lat)`
with `lat1 = (coords[side^1|2] - coords[side^1&2]) / 2.0`, transcribed with
Python's operator precedence (`side^1&2` parses as `side^(1&2) = side`). -/
def dlatVal (items : List (Nat × Coords)) (side : Nat) (lat : ℚ)
    (other : Nat) : ℚ :=
  absQ ((coord (coordsOf items other) (side ^^^ 1 ||| 2) -
    coord (coordsOf items other) (side ^^^ 1 &&& 2)) / 2 - lat)

/-- The candidate loop of `closest`, carrying `mindist` and the accumulated
`result` list; the `d > mindist` test breaks out early.  Candidate
coordinates are read with `coordsOf`: every scanned object is a key of the
item store whenever the index invariant holds. -/
def closestLoop (items : List (Nat × Coords)) (side : Nat) (pos lat : ℚ) :
    List Nat → ℚ → List (Nat × ℚ) → List (Nat × ℚ)
  | [], _, result => result
  | other :: rest, mindist, result =>
    if mindist < dVal items side pos other then result
    else if dlatVal items side lat other < dVal items side pos other then
      closestLoop items side pos lat rest
        (minQ mindist (dlatVal items side lat other + dVal items side pos other))
        (result ++ [(other, dlatVal items side lat other + dVal items side pos other)])
    else closestLoop items side pos lat rest mindist result

/-- The query `closest(obj, side)`.  The leading `self._items[obj]` raises
`KeyError` on an unmanaged object (the `Except.error` arm).  `lat` is
transcribed with Python's operator precedence: `side^1&2` parses as
`side^(1&2) = side` and `side^1|2` as `(side^1)|2`.  `objects.index(obj)`
and `indices[-1]` are modelled by `List.indexOf` and `getLastD`; under the
index invariant a managed object is present in the sorted pair and the
index is non-empty, so these agree with Python.  The final stable sort by
distance picks the first minimal-distance candidate, as Python's
`list.sort` does. -/
def closest (st : RState) (obj : Nat) (side : Nat) : Except Unit (Option Nat) :=
  match List.lookup obj st.items with
  | none => Except.error ()
  | some c0 =>
    let pos := coord c0 (side ^^^ 2)
    let lat := (coord c0 (side ^^^ 1 ||| 2) - coord c0 (side ^^^ 1 &&& 2)) / 2
    let p := sortedFor st (side ^^^ 2)
    let i := List.indexOf obj p.objects
    let mindist := p.indices.getLastD 0
    let scan := scanSlice p.objects i (decide (side < 2))
    let result := closestLoop st.items side pos lat scan mindist []
    match result.mergeSort (fun a b => decide (a.2 ≤ b.2)) with
    | [] => Except.ok none
    | r :: _ => Except.ok (some r.1)

/-- The method `__len__`. -/
def sizeQ (st : RState) : Nat := st.items.length

/-- The coordinate, on a given side, of an object as recorded in the item
store: the sort key of every side index entry. -/
def gfun (items : List (Nat × Coords)) (side : Nat) : Nat → ℚ :=
  fun o => coord (coordsOf items o) side

/-- The side-index invariant for one present side: the objects list is a
permutation of the item-store keys (same object set, hence same length as
the item store), the indices list records exactly each object's stored
coordinate on that side (so both parallel lists have equal length), and
the indices list is sorted non-decreasingly. -/
def goodSide (items : List (Nat × Coords)) (side : Nat) (p : SideData) : Prop :=
  p.objects.Perm (keys items) ∧
  p.indices = p.objects.map (gfun items side) ∧
  p.indices.Sorted (· ≤ ·)

/-- The invariant lifted to an optional cache entry: absent caches are
vacuously fine. -/
def goodIdxOpt (items : List (Nat × Coords)) (side : Nat) :
    Option SideData → Prop
  | none => True
  | some p => goodSide items side p

/-- The full state invariant: the item store is a dict (no duplicate keys)
and every present side cache satisfies the side invariant. -/
def goodState (st : RState) : Prop :=
  (keys st.items).Nodup ∧
  ∀ side, side < 4 → goodIdxOpt st.items side (getIdx st side)

instance goodSideDecidable (items : List (Nat × Coords)) (side : Nat)
    (p : SideData) : Decidable (goodSide items side p) := by
  unfold goodSide; infer_instance

instance goodIdxOptDecidable (items : List (Nat × Coords)) (side : Nat) :
    ∀ op : Option SideData, Decidable (goodIdxOpt items side op)
  | none => isTrue trivial
  | some p => goodSideDecidable items side p

instance goodStateDecidable (st : RState) : Decidable (goodState st) := by
  unfold goodState; infer_instance

/-- The invariant exactly as the specification states it: every present side
index has as many entries (in both parallel lists) as the item store,
describes the same object set as the item store, and its coordinate
sequence is sorted non-decreasingly. -/
def claimInvariant (st : RState) : Prop :=
  ∀ side, side < 4 → ∀ p, getIdx st side = some p →
    p.indices.length = sizeQ st ∧ p.objects.length = sizeQ st ∧
    (∀ o, o ∈ p.objects ↔ o ∈ keys st.items) ∧ p.indices.Sorted (· ≤ ·)

/-- The documented precondition of `get_coords`: `x < x2` and `y < y2` for
every stored rectangle. -/
def properItems (items : List (Nat × Coords)) : Prop :=
  ∀ e ∈ items, e.2.left < e.2.right ∧ e.2.top < e.2.bottom

instance properItemsDecidable (items : List (Nat × Coords)) :
    Decidable (properItems items) := by
  unfold properItems; infer_instance

/-- Coordinate function of the worked example of the specification:
object 0 is A = (0, 0, 10, 10), every other object is B = (20, 20, 30, 30). -/
def fAB : Nat → Coords := fun o => if o = 0 then ⟨0, 0, 10, 10⟩ else ⟨20, 20, 30, 30⟩

/-- The two-object state of the worked example, reached by two `add` calls
on a fresh instance. -/
def stAB : RState := add fAB (add fAB emptyState 0) 1

/-- Coordinate function for the tie-breaking example: three rectangles that
share the Left coordinate 0. -/
def fC2 : Nat → Coords := fun o =>
  if o = 0 then ⟨0, 0, 10, 10⟩
  else if o = 1 then ⟨0, 20, 10, 30⟩
  else ⟨0, 40, 10, 50⟩

/-- A state with objects 0 and 1 added and the Left side index built by a
query (`ensure 0` models the cache write of `_sorted(Left)`). -/
def stC2 : RState := ensure (add fC2 (add fC2 emptyState 0) 1) 0

/-- The worked-example state with all four side indexes built by queries
(the cache writes of `_sorted` on each side). -/
def stABbuilt : RState := ensure (ensure (ensure (ensure stAB 0) 1) 2) 3

/-! ### Association-list lemmas -/

theorem mem_keys_iff_lookup (items : List (Nat × Coords)) (o : Nat) :
    o ∈ keys items ↔ (List.lookup o items).isSome = true := by
  simp only [keys, List.lookup_isSome_iff, List.mem_map, beq_iff_eq]
  constructor
  · rintro ⟨e, he, rfl⟩; exact ⟨e, he, rfl⟩
  · rintro ⟨e, he, rfl⟩; exact ⟨e, he, rfl⟩

theorem lookup_eq_some_of_mem {items : List (Nat × Coords)} {o : Nat}
    {c : Coords} (hnd : (keys items).Nodup) (hm : (o, c) ∈ items) :
    List.lookup o items = some c := by
  induction items with
  | nil => simp at hm
  | cons e rest ih =>
    simp only [keys, List.map_cons, List.nodup_cons] at hnd
    rcases List.mem_cons.1 hm with h | h
    · subst h; simp [List.lookup]
    · have hok : o ∈ keys rest := List.mem_map.2 ⟨(o, c), h, rfl⟩
      have hne : o ≠ e.1 := fun he => hnd.1 (he ▸ hok)
      have : (o == e.1) = false := beq_false_of_ne hne
      simp [List.lookup, this, ih hnd.2 h]

theorem mem_of_lookup_eq_some {items : List (Nat × Coords)} {o : Nat}
    {c : Coords} (h : List.lookup o items = some c) : (o, c) ∈ items := by
  induction items with
  | nil => simp [List.lookup] at h
  | cons e rest ih =>
    rw [List.lookup] at h
    rcases hbe : (o == e.1) with _ | _
    · rw [hbe] at h
      exact List.mem_cons_of_mem _ (ih h)
    · rw [hbe] at h
      have : o = e.1 := beq_iff_eq.1 hbe
      cases e with
      | mk k v =>
        simp only [Option.some.injEq] at h
        subst h
        simp_all

theorem coordsOf_eq {items : List (Nat × Coords)} {o : Nat} {c : Coords}
    (hnd : (keys items).Nodup) (hm : (o, c) ∈ items) :
    coordsOf items o = c := by
  rw [coordsOf, lookup_eq_some_of_mem hnd hm]; rfl

/-! ### takeWhile and bisect lemmas -/

theorem take_length_takeWhile {α : Type} (p : α → Bool) (l : List α) :
    l.take (l.takeWhile p).length = l.takeWhile p := by
  induction l with
  | nil => rfl
  | cons a t ih =>
    by_cases h : p a <;> simp [List.takeWhile_cons, h, ih]

theorem drop_length_takeWhile {α : Type} (p : α → Bool) (l : List α) :
    l.drop (l.takeWhile p).length = l.dropWhile p := by
  induction l with
  | nil => rfl
  | cons a t ih =>
    by_cases h : p a <;> simp [List.takeWhile_cons, List.dropWhile_cons, h, ih]

theorem mem_take_bisect_right (g : Nat → ℚ) (objs : List Nat) (v : ℚ)
    (hs : (objs.map g).Sorted (· ≤ ·)) (o : Nat) :
    o ∈ objs.take (bisect_right (objs.map g) v) ↔ o ∈ objs ∧ g o ≤ v := by
  induction objs with
  | nil => simp [bisect_right]
  | cons a t ih =>
    rw [List.map_cons, List.sorted_cons] at hs
    obtain ⟨ha, ht⟩ := hs
    by_cases h : g a ≤ v
    · have : bisect_right (g a :: t.map g) v = bisect_right (t.map g) v + 1 := by
        simp [bisect_right, List.takeWhile_cons, h, Nat.add_comm]
      rw [show (a :: t).map g = g a :: t.map g from rfl, this, List.take_succ_cons]
      constructor
      · intro hmem
        rcases List.mem_cons.1 hmem with rfl | hm
        · exact ⟨List.mem_cons_self _ _, h⟩
        · obtain ⟨h1, h2⟩ := (ih ht).1 (by simpa using hm)
          exact ⟨List.mem_cons_of_mem _ h1, h2⟩
      · rintro ⟨hm, hle⟩
        rcases List.mem_cons.1 hm with rfl | hm
        · exact List.mem_cons_self _ _
        · exact List.mem_cons_of_mem _ ((ih ht).2 ⟨hm, hle⟩)
    · have : bisect_right (g a :: t.map g) v = 0 := by
        simp [bisect_right, List.takeWhile_cons, h]
      rw [show (a :: t).map g = g a :: t.map g from rfl, this]
      simp only [List.take_zero, List.not_mem_nil, false_iff]
      rintro ⟨hm, hle⟩
      rcases List.mem_cons.1 hm with rfl | hm
      · exact h hle
      · exact h (le_trans (ha _ (List.mem_map.2 ⟨o, hm, rfl⟩)) hle)

theorem mem_drop_bisect_left (g : Nat → ℚ) (objs : List Nat) (v : ℚ)
    (hs : (objs.map g).Sorted (· ≤ ·)) (o : Nat) :
    o ∈ objs.drop (bisect_left (objs.map g) v) ↔ o ∈ objs ∧ v ≤ g o := by
  induction objs with
  | nil => simp [bisect_left]
  | cons a t ih =>
    rw [List.map_cons, List.sorted_cons] at hs
    obtain ⟨ha, ht⟩ := hs
    by_cases h : g a < v
    · have : bisect_left (g a :: t.map g) v = bisect_left (t.map g) v + 1 := by
        simp [bisect_left, List.takeWhile_cons, h, Nat.add_comm]
      rw [show (a :: t).map g = g a :: t.map g from rfl, this, List.drop_succ_cons]
      rw [ih ht]
      constructor
      · rintro ⟨hm, hle⟩; exact ⟨List.mem_cons_of_mem _ hm, hle⟩
      · rintro ⟨hm, hle⟩
        rcases List.mem_cons.1 hm with rfl | hm
        · exact absurd hle (not_le.2 h)
        · exact ⟨hm, hle⟩
    · have : bisect_left (g a :: t.map g) v = 0 := by
        simp [bisect_left, List.takeWhile_cons, h]
      rw [show (a :: t).map g = g a :: t.map g from rfl, this, List.drop_zero]
      constructor
      · intro hm
        refine ⟨hm, ?_⟩
        rcases List.mem_cons.1 hm with rfl | hm'
        · exact not_lt.1 h
        · exact le_trans (not_lt.1 h) (ha _ (List.mem_map.2 ⟨o, hm', rfl⟩))
      · exact fun hh => hh.1

/-! ### The lazy builder establishes the side invariant -/

theorem buildSide_goodSide (items : List (Nat × Coords)) (side : Nat)
    (hnd : (keys items).Nodup) :
    goodSide items side (buildSide items side) := by
  unfold buildSide goodSide
  simp only
  set pairs := items.map (fun e => (coord e.2 side, e.1)) with hp
  set ps := pairs.mergeSort (fun a b => decide (a.1 ≤ b.1)) with hps
  have hperm : ps.Perm pairs := List.mergeSort_perm pairs _
  refine ⟨?_, ?_, ?_⟩
  · have h2 := hperm.map Prod.snd
    have h3 : pairs.map Prod.snd = keys items := by
      rw [hp, List.map_map]; rfl
    rwa [h3] at h2
  · have key : ∀ e ∈ ps, Prod.fst e = (gfun items side ∘ Prod.snd) e := by
      intro e he
      have hmem : e ∈ pairs := hperm.mem_iff.1 he
      rw [hp] at hmem
      obtain ⟨⟨o, c⟩, hoc, rfl⟩ := List.mem_map.1 hmem
      simp only [Function.comp, gfun]
      rw [coordsOf_eq hnd hoc]
    rw [List.map_map]
    exact List.map_congr_left key
  · have htrans : ∀ (a b c : ℚ × Nat),
        (fun a b : ℚ × Nat => decide (a.1 ≤ b.1)) a b →
        (fun a b : ℚ × Nat => decide (a.1 ≤ b.1)) b c →
        (fun a b : ℚ × Nat => decide (a.1 ≤ b.1)) a c := by
      intro a b c hab hbc
      simp only [decide_eq_true_eq] at hab hbc ⊢
      exact le_trans hab hbc
    have htotal : ∀ (a b : ℚ × Nat),
        ((fun a b : ℚ × Nat => decide (a.1 ≤ b.1)) a b ||
         (fun a b : ℚ × Nat => decide (a.1 ≤ b.1)) b a) := by
      intro a b
      simp only [Bool.or_eq_true, decide_eq_true_eq]
      exact le_total a.1 b.1
    have hps2 := List.sorted_mergeSort htrans htotal pairs
    rw [List.Sorted, List.pairwise_map]
    exact hps2.imp (fun h => by simpa using h)

theorem sortedFor_goodSide {st : RState} (h : goodState st) (side : Nat)
    (hlt : side < 4) : goodSide st.items side (sortedFor st side) := by
  unfold sortedFor
  cases hidx : getIdx st side with
  | none => exact buildSide_goodSide st.items side h.1
  | some p =>
    have h2 := h.2 side hlt
    rw [hidx] at h2
    exact h2

theorem setIdx_items (st : RState) (side : Nat) (p : SideData) :
    (setIdx st side p).items = st.items := by
  match side with
  | 0 => rfl
  | 1 => rfl
  | 2 => rfl
  | 3 => rfl
  | n + 4 => rfl

theorem getIdx_setIdx (st : RState) (side : Nat) (p : SideData) (side' : Nat)
    (h : side < 4) (h' : side' < 4) :
    getIdx (setIdx st side p) side' =
      if side' = side then some p else getIdx st side' := by
  have hs : side = 0 ∨ side = 1 ∨ side = 2 ∨ side = 3 := by omega
  have hs' : side' = 0 ∨ side' = 1 ∨ side' = 2 ∨ side' = 3 := by omega
  rcases hs with rfl | rfl | rfl | rfl <;>
    rcases hs' with rfl | rfl | rfl | rfl <;>
      simp [getIdx, setIdx]

theorem ensure_items (st : RState) (side : Nat) :
    (ensure st side).items = st.items := by
  rw [ensure]
  cases getIdx st side with
  | some _ => rfl
  | none => exact setIdx_items st side _

theorem ensure_goodState {st : RState} (h : goodState st) (side : Nat) :
    goodState (ensure st side) := by
  rw [ensure]
  cases hidx : getIdx st side with
  | some p => exact h
  | none =>
    by_cases hlt : side < 4
    · constructor
      · rw [setIdx_items]; exact h.1
      · intro side' hlt'
        rw [setIdx_items, getIdx_setIdx st side _ side' hlt hlt']
        by_cases he : side' = side
        · rw [if_pos he]
          subst he
          exact buildSide_goodSide st.items side' h.1
        · rw [if_neg he]
          exact h.2 side' hlt'
    · have : setIdx st side (buildSide st.items side) = st := by
        match side, hlt with
        | n + 4, _ => rfl
      rw [this]
      exact h

/-! ### Membership characterization of the range primitives -/

theorem mem_smallerFn {st : RState} (h : goodState st) {side : Nat}
    (hlt : side < 4) (v : ℚ) (o : Nat) :
    o ∈ smallerFn st side v ↔
      o ∈ keys st.items ∧ gfun st.items side o ≤ v := by
  obtain ⟨hperm, hmap, hsort⟩ := sortedFor_goodSide h side hlt
  rw [smallerFn]
  rw [hmap] at hsort ⊢
  rw [mem_take_bisect_right (gfun st.items side) _ v hsort o, hperm.mem_iff]

theorem mem_largerFn {st : RState} (h : goodState st) {side : Nat}
    (hlt : side < 4) (v : ℚ) (o : Nat) :
    o ∈ largerFn st side v ↔
      o ∈ keys st.items ∧ v ≤ gfun st.items side o := by
  obtain ⟨hperm, hmap, hsort⟩ := sortedFor_goodSide h side hlt
  rw [largerFn]
  rw [hmap] at hsort ⊢
  rw [mem_drop_bisect_left (gfun st.items side) _ v hsort o, hperm.mem_iff]

theorem mem_testLoop (st : RState) (ts : List (Meth × Nat × ℚ))
    (acc : Finset ℕ) (o : ℕ) :
    o ∈ testLoop st ts acc ↔
      o ∈ acc ∧ ∀ t ∈ ts, o ∈ (runTest st t).toFinset := by
  induction ts generalizing acc with
  | nil => simp [testLoop]
  | cons t ts ih =>
    rw [testLoop]
    by_cases he : acc ∩ (runTest st t).toFinset = ∅
    · rw [if_pos he]
      constructor
      · intro hmem
        rw [he] at hmem
        simp at hmem
      · rintro ⟨ha, hall⟩
        have hmem : o ∈ acc ∩ (runTest st t).toFinset :=
          Finset.mem_inter.2 ⟨ha, hall t (List.mem_cons_self _ _)⟩
        rw [he] at hmem
        simp at hmem
    · rw [if_neg he, ih]
      simp only [Finset.mem_inter, List.forall_mem_cons]
      tauto

theorem mem_testAll_cons (st : RState) (t : Meth × Nat × ℚ)
    (ts : List (Meth × Nat × ℚ)) (o : ℕ) :
    o ∈ testAll st (t :: ts) ↔
      ∀ t' ∈ t :: ts, o ∈ (runTest st t').toFinset := by
  rw [testAll]
  by_cases he : (runTest st t).toFinset = ∅
  · rw [if_pos he]
    constructor
    · intro hmem
      rw [he] at hmem
      simp at hmem
    · intro hall
      have hmem := hall t (List.mem_cons_self _ _)
      rw [he] at hmem
      simp at hmem
  · rw [if_neg he, mem_testLoop]
    simp only [List.forall_mem_cons]

/-! ### Insertion and deletion helper lemmas -/

theorem mem_listInsert {α : Type} (l : List α) (i : Nat) (x a : α) :
    a ∈ listInsert l i x ↔ a = x ∨ a ∈ l := by
  unfold listInsert
  constructor
  · intro h
    rcases List.mem_append.1 h with h | h
    · exact Or.inr (List.take_subset i l h)
    · rcases List.mem_cons.1 h with rfl | h
      · exact Or.inl rfl
      · exact Or.inr (List.drop_subset i l h)
  · intro h
    rcases h with rfl | h
    · exact List.mem_append.2 (Or.inr (List.mem_cons_self _ _))
    · conv at h => rw [← List.take_append_drop i l]
      rcases List.mem_append.1 h with h | h
      · exact List.mem_append.2 (Or.inl h)
      · exact List.mem_append.2 (Or.inr (List.mem_cons_of_mem _ h))

theorem map_listInsert {α β : Type} (f : α → β) (l : List α) (i : Nat)
    (x : α) : (listInsert l i x).map f = listInsert (l.map f) i (f x) := by
  simp [listInsert, List.map_take, List.map_drop]

theorem listInsert_perm {α : Type} (l : List α) (i : Nat) (x : α) :
    (listInsert l i x).Perm (x :: l) := by
  have h : List.Perm (l.take i ++ x :: l.drop i)
      (x :: (l.take i ++ l.drop i)) :=
    List.perm_middle
  rw [List.take_append_drop] at h
  exact h

theorem insert_bisect_left_sorted (v : ℚ) :
    ∀ (l : List ℚ), l.Sorted (· ≤ ·) →
      (listInsert l (bisect_left l v) v).Sorted (· ≤ ·)
  | [], _ => by simp [listInsert, bisect_left]
  | a :: t, hs => by
    rw [List.sorted_cons] at hs
    obtain ⟨ha, ht⟩ := hs
    by_cases h : a < v
    · have hb : bisect_left (a :: t) v = bisect_left t v + 1 := by
        simp [bisect_left, List.takeWhile_cons, h, Nat.add_comm]
      have hl : listInsert (a :: t) (bisect_left t v + 1) v =
          a :: listInsert t (bisect_left t v) v := by
        simp [listInsert]
      rw [hb, hl, List.sorted_cons]
      refine ⟨?_, insert_bisect_left_sorted v t ht⟩
      intro b hb2
      rcases (mem_listInsert _ _ _ _).1 hb2 with rfl | hb2
      · exact le_of_lt h
      · exact ha b hb2
    · have hb : bisect_left (a :: t) v = 0 := by
        simp [bisect_left, List.takeWhile_cons, h]
      have hl : listInsert (a :: t) 0 v = v :: a :: t := by
        simp [listInsert]
      rw [hb, hl, List.sorted_cons]
      refine ⟨?_, List.sorted_cons.2 ⟨ha, ht⟩⟩
      intro b hb2
      rcases List.mem_cons.1 hb2 with rfl | hb2
      · exact not_lt.1 h
      · exact le_trans (not_lt.1 h) (ha b hb2)

theorem take_bisect_left_lt (l : List ℚ) (v : ℚ) :
    ∀ q ∈ l.take (bisect_left l v), q < v := by
  intro q hq
  rw [bisect_left, take_length_takeWhile] at hq
  simpa using List.mem_takeWhile_imp hq

theorem sorted_drop_bisect_left_ge (v : ℚ) :
    ∀ (l : List ℚ), l.Sorted (· ≤ ·) →
      ∀ q ∈ l.drop (bisect_left l v), v ≤ q
  | [], _, q, hq => by simp at hq
  | a :: t, hs, q, hq => by
    rw [List.sorted_cons] at hs
    by_cases h : a < v
    · have hb : bisect_left (a :: t) v = bisect_left t v + 1 := by
        simp [bisect_left, List.takeWhile_cons, h, Nat.add_comm]
      rw [hb, List.drop_succ_cons] at hq
      exact sorted_drop_bisect_left_ge v t hs.2 q hq
    · have hb : bisect_left (a :: t) v = 0 := by
        simp [bisect_left, List.takeWhile_cons, h]
      rw [hb, List.drop_zero] at hq
      rcases List.mem_cons.1 hq with rfl | hq
      · exact not_lt.1 h
      · exact le_trans (not_lt.1 h) (hs.1 q hq)

theorem map_eraseIdx {α β : Type} (f : α → β) :
    ∀ (l : List α) (i : Nat), (l.eraseIdx i).map f = (l.map f).eraseIdx i
  | [], _ => by simp
  | _ :: _, 0 => by simp
  | a :: t, n + 1 => by
    simp only [List.eraseIdx_cons_succ, List.map_cons]
    rw [map_eraseIdx f t n]

theorem eraseIdx_indexOf_eq_erase : ∀ (l : List Nat) (o : Nat),
    l.eraseIdx (List.indexOf o l) = l.erase o
  | [], _ => rfl
  | a :: t, o => by
    by_cases h : a = o
    · subst h
      have h1 : List.indexOf a (a :: t) = 0 := by
        simp [List.indexOf, List.findIdx_cons]
      rw [h1, List.eraseIdx_cons_zero, List.erase_cons_head]
    · have hbe : (a == o) = false := beq_false_of_ne h
      have h1 : List.indexOf o (a :: t) = List.indexOf o t + 1 := by
        simp [List.indexOf, List.findIdx_cons, hbe]
      rw [h1, List.eraseIdx_cons_succ, List.erase_cons_tail,
        eraseIdx_indexOf_eq_erase t o]
      simp [hbe]

theorem lookup_delKey_ne {o o' : Nat} (h : o' ≠ o) :
    ∀ (items : List (Nat × Coords)),
      List.lookup o' (delKey items o) = List.lookup o' items
  | [] => rfl
  | e :: rest => by
    rw [delKey, List.eraseP_cons]
    by_cases he : e.1 = o
    · have hbe : (e.1 == o) = true := beq_iff_eq.2 he
      rw [hbe]
      simp only [cond_true]
      have hbe2 : (o' == e.1) = false := beq_false_of_ne (by rw [he]; exact h)
      rw [List.lookup, hbe2]
    · have hbe : (e.1 == o) = false := beq_false_of_ne he
      rw [hbe]
      simp only [cond_false]
      rw [List.lookup, List.lookup]
      cases o' == e.1
      · exact lookup_delKey_ne h rest
      · rfl

theorem keys_delKey : ∀ (items : List (Nat × Coords)) (o : Nat),
    keys (delKey items o) = (keys items).erase o
  | [], _ => rfl
  | e :: rest, o => by
    rw [delKey, List.eraseP_cons]
    by_cases he : e.1 = o
    · have hbe : (e.1 == o) = true := beq_iff_eq.2 he
      rw [hbe]
      simp only [cond_true]
      have h2 : keys (e :: rest) = e.1 :: keys rest := rfl
      rw [h2, he, List.erase_cons_head]
    · have hbe : (e.1 == o) = false := beq_false_of_ne he
      rw [hbe]
      simp only [cond_false]
      have h1 : keys (e :: List.eraseP (fun e => e.1 == o) rest) =
          e.1 :: keys (delKey rest o) := rfl
      have h2 : keys (e :: rest) = e.1 :: keys rest := rfl
      rw [h1, h2, keys_delKey rest o, List.erase_cons_tail]
      simp [hbe]

/-! ### Characterization of the three set queries -/

theorem mem_atQ {st : RState} (h : goodState st) (x y : ℚ) (o : ℕ) :
    o ∈ atQ st x y ↔ ∃ c, List.lookup o st.items = some c ∧
      c.top ≤ y ∧ y ≤ c.bottom ∧ c.left ≤ x ∧ x ≤ c.right := by
  rw [atQ, mem_testAll_cons]
  simp only [List.forall_mem_cons, List.mem_toFinset]
  rw [show runTest st (Meth.smaller, sideTop, y) = smallerFn st 1 y from rfl,
    show runTest st (Meth.larger, sideBottom, y) = largerFn st 3 y from rfl,
    show runTest st (Meth.smaller, sideLeft, x) = smallerFn st 0 x from rfl,
    show runTest st (Meth.larger, sideRight, x) = largerFn st 2 x from rfl,
    mem_smallerFn h (by omega) y o, mem_largerFn h (by omega) y o,
    mem_smallerFn h (by omega) x o, mem_largerFn h (by omega) x o]
  constructor
  · rintro ⟨⟨hk, h1⟩, ⟨-, h2⟩, ⟨-, h3⟩, ⟨-, h4⟩, -⟩
    rw [mem_keys_iff_lookup] at hk
    obtain ⟨c, hc⟩ := Option.isSome_iff_exists.1 hk
    have hco : coordsOf st.items o = c := by rw [coordsOf, hc]; rfl
    simp only [gfun, hco] at h1 h2 h3 h4
    exact ⟨c, hc, h1, h2, h3, h4⟩
  · rintro ⟨c, hc, h1, h2, h3, h4⟩
    have hk : o ∈ keys st.items := by
      rw [mem_keys_iff_lookup, hc]; rfl
    have hco : coordsOf st.items o = c := by rw [coordsOf, hc]; rfl
    refine ⟨⟨hk, ?_⟩, ⟨hk, ?_⟩, ⟨hk, ?_⟩, ⟨hk, ?_⟩, by simp⟩ <;>
      simp only [gfun, hco]
    · exact h1
    · exact h2
    · exact h3
    · exact h4

theorem mem_insideQ {st : RState} (h : goodState st) (l t r b : ℚ) (o : ℕ) :
    o ∈ insideQ st l t r b ↔ ∃ c, List.lookup o st.items = some c ∧
      t ≤ c.top ∧ c.bottom ≤ b ∧ l ≤ c.left ∧ c.right ≤ r := by
  rw [insideQ, mem_testAll_cons]
  simp only [List.forall_mem_cons, List.mem_toFinset]
  rw [show runTest st (Meth.larger, sideTop, t) = largerFn st 1 t from rfl,
    show runTest st (Meth.smaller, sideBottom, b) = smallerFn st 3 b from rfl,
    show runTest st (Meth.larger, sideLeft, l) = largerFn st 0 l from rfl,
    show runTest st (Meth.smaller, sideRight, r) = smallerFn st 2 r from rfl,
    mem_largerFn h (by omega) t o, mem_smallerFn h (by omega) b o,
    mem_largerFn h (by omega) l o, mem_smallerFn h (by omega) r o]
  constructor
  · rintro ⟨⟨hk, h1⟩, ⟨-, h2⟩, ⟨-, h3⟩, ⟨-, h4⟩, -⟩
    rw [mem_keys_iff_lookup] at hk
    obtain ⟨c, hc⟩ := Option.isSome_iff_exists.1 hk
    have hco : coordsOf st.items o = c := by rw [coordsOf, hc]; rfl
    simp only [gfun, hco] at h1 h2 h3 h4
    exact ⟨c, hc, h1, h2, h3, h4⟩
  · rintro ⟨c, hc, h1, h2, h3, h4⟩
    have hk : o ∈ keys st.items := by
      rw [mem_keys_iff_lookup, hc]; rfl
    have hco : coordsOf st.items o = c := by rw [coordsOf, hc]; rfl
    refine ⟨⟨hk, ?_⟩, ⟨hk, ?_⟩, ⟨hk, ?_⟩, ⟨hk, ?_⟩, by simp⟩ <;>
      simp only [gfun, hco]
    · exact h1
    · exact h2
    · exact h3
    · exact h4

theorem mem_intersectingQ {st : RState} (h : goodState st) (l t r b : ℚ)
    (o : ℕ) :
    o ∈ intersectingQ st l t r b ↔ ∃ c, List.lookup o st.items = some c ∧
      c.top ≤ b ∧ t ≤ c.bottom ∧ c.left ≤ r ∧ l ≤ c.right := by
  rw [intersectingQ, mem_testAll_cons]
  simp only [List.forall_mem_cons, List.mem_toFinset]
  rw [show runTest st (Meth.smaller, sideTop, b) = smallerFn st 1 b from rfl,
    show runTest st (Meth.larger, sideBottom, t) = largerFn st 3 t from rfl,
    show runTest st (Meth.smaller, sideLeft, r) = smallerFn st 0 r from rfl,
    show runTest st (Meth.larger, sideRight, l) = largerFn st 2 l from rfl,
    mem_smallerFn h (by omega) b o, mem_largerFn h (by omega) t o,
    mem_smallerFn h (by omega) r o, mem_largerFn h (by omega) l o]
  constructor
  · rintro ⟨⟨hk, h1⟩, ⟨-, h2⟩, ⟨-, h3⟩, ⟨-, h4⟩, -⟩
    rw [mem_keys_iff_lookup] at hk
    obtain ⟨c, hc⟩ := Option.isSome_iff_exists.1 hk
    have hco : coordsOf st.items o = c := by rw [coordsOf, hc]; rfl
    simp only [gfun, hco] at h1 h2 h3 h4
    exact ⟨c, hc, h1, h2, h3, h4⟩
  · rintro ⟨c, hc, h1, h2, h3, h4⟩
    have hk : o ∈ keys st.items := by
      rw [mem_keys_iff_lookup, hc]; rfl
    have hco : coordsOf st.items o = c := by rw [coordsOf, hc]; rfl
    refine ⟨⟨hk, ?_⟩, ⟨hk, ?_⟩, ⟨hk, ?_⟩, ⟨hk, ?_⟩, by simp⟩ <;>
      simp only [gfun, hco]
    · exact h1
    · exact h2
    · exact h3
    · exact h4

/-! ### Invariant preservation by the mutating operations -/

theorem add_of_contains {f : Nat → Coords} {st : RState} {o : Nat}
    (h : containsObj st o = true) : add f st o = st := by
  rw [add, if_pos h]

theorem add_items {f : Nat → Coords} {st : RState} {o : Nat}
    (h : containsObj st o = false) :
    (add f st o).items = st.items ++ [(o, f o)] := by
  rw [add, if_neg (by simp [h])]

theorem getIdx_add {f : Nat → Coords} {st : RState} {o : Nat}
    (h : containsObj st o = false) (side : Nat) (hlt : side < 4) :
    getIdx (add f st o) side =
      (getIdx st side).map (fun q =>
        ⟨listInsert q.indices (bisect_left q.indices (coord (f o) side))
            (coord (f o) side),
          listInsert q.objects (bisect_left q.indices (coord (f o) side)) o⟩) := by
  rw [add, if_neg (by simp [h])]
  rcases (by omega : side = 0 ∨ side = 1 ∨ side = 2 ∨ side = 3) with
    rfl | rfl | rfl | rfl
  · rw [show getIdx st 0 = st.idx0 from rfl]
    cases st.idx0 <;> rfl
  · rw [show getIdx st 1 = st.idx1 from rfl]
    cases st.idx1 <;> rfl
  · rw [show getIdx st 2 = st.idx2 from rfl]
    cases st.idx2 <;> rfl
  · rw [show getIdx st 3 = st.idx3 from rfl]
    cases st.idx3 <;> rfl

theorem contains_add_self (f : Nat → Coords) (st : RState) (o : Nat) :
    containsObj (add f st o) o = true := by
  by_cases h : containsObj st o
  · rw [add_of_contains h]; exact h
  · have h' : containsObj st o = false := by simpa using h
    rw [containsObj, add_items h', List.lookup_append]
    have hl : List.lookup o st.items = none := by
      simp only [containsObj] at h'
      simpa using h'
    rw [hl]
    simp

theorem lookup_add_new {f : Nat → Coords} {st : RState} {o : Nat}
    (h : containsObj st o = false) :
    List.lookup o (add f st o).items = some (f o) := by
  rw [add_items h, List.lookup_append]
  have hl : List.lookup o st.items = none := by
    simp only [containsObj] at h
    simpa using h
  rw [hl]
  simp

theorem lookup_add_old {f : Nat → Coords} {st : RState} {o o' : Nat}
    (h : containsObj st o = false) (h' : o' ∈ keys st.items) :
    List.lookup o' (add f st o).items = List.lookup o' st.items := by
  rw [add_items h, List.lookup_append]
  obtain ⟨c, hc⟩ := Option.isSome_iff_exists.1 ((mem_keys_iff_lookup _ _).1 h')
  rw [hc]
  rfl


theorem add_goodState {f : Nat → Coords} {st : RState} {o : Nat}
    (h : goodState st) : goodState (add f st o) := by
  by_cases hc : containsObj st o
  · rw [add_of_contains hc]; exact h
  · have hc' : containsObj st o = false := by simpa using hc
    have hno : o ∉ keys st.items := by
      rw [mem_keys_iff_lookup]
      simp only [containsObj] at hc'
      simp [hc']
    constructor
    · rw [add_items hc', keys, List.map_append]
      refine List.Nodup.append h.1 (List.nodup_singleton o) ?_
      intro a ha hb
      simp only [List.map_cons, List.map_nil, List.mem_singleton] at hb
      exact hno (hb ▸ ha)
    · intro side hlt
      rw [getIdx_add hc' side hlt]
      cases hq : getIdx st side with
      | none => exact trivial
      | some q =>
        have hgood := h.2 side hlt
        rw [hq] at hgood
        obtain ⟨hperm, hmap, hsort⟩ := hgood
        refine ⟨?_, ?_, ?_⟩
        · show (listInsert q.objects
              (bisect_left q.indices (coord (f o) side)) o).Perm
            (keys (add f st o).items)
          have h1 := listInsert_perm q.objects
            (bisect_left q.indices (coord (f o) side)) o
          have h2 : keys (add f st o).items = keys st.items ++ [o] := by
            rw [add_items hc', keys, List.map_append]
            rfl
          have h3 : (keys st.items ++ [o]).Perm (o :: keys st.items) := by
            have h4 : List.Perm (keys st.items ++ o :: [])
                (o :: (keys st.items ++ [])) :=
              List.perm_middle
            simp only [List.append_nil] at h4
            exact h4
          rw [h2]
          exact (h1.trans (hperm.cons o)).trans h3.symm
        · show listInsert q.indices
              (bisect_left q.indices (coord (f o) side)) (coord (f o) side) =
            (listInsert q.objects
              (bisect_left q.indices (coord (f o) side)) o).map
              (gfun (add f st o).items side)
          rw [map_listInsert]
          have hgo : gfun (add f st o).items side o = coord (f o) side := by
            simp only [gfun, coordsOf]
            rw [lookup_add_new hc']
            rfl
          have hold : q.objects.map (gfun (add f st o).items side) =
              q.objects.map (gfun st.items side) := by
            apply List.map_congr_left
            intro o' ho'
            have hk : o' ∈ keys st.items := hperm.mem_iff.1 ho'
            simp only [gfun, coordsOf]
            rw [lookup_add_old hc' hk]
          rw [hgo, hold, ← hmap]
        · show (listInsert q.indices
              (bisect_left q.indices (coord (f o) side))
              (coord (f o) side)).Sorted (· ≤ ·)
          exact insert_bisect_left_sorted _ q.indices hsort

theorem remove_not_found (st : RState) (o : Nat) :
    remove st o = Except.error () ↔ containsObj st o = false := by
  rw [remove]
  by_cases h : containsObj st o
  · rw [if_pos h]
    simp [h]
  · rw [if_neg h]
    simpa using h

theorem getIdx_remove {st : RState} {o : Nat} {st' : RState}
    (hr : remove st o = Except.ok st') (side : Nat) (hlt : side < 4) :
    getIdx st' side = (getIdx st side).map (fun q =>
      ⟨q.indices.eraseIdx (List.indexOf o q.objects),
        q.objects.eraseIdx (List.indexOf o q.objects)⟩) := by
  rw [remove] at hr
  by_cases h : containsObj st o
  · rw [if_pos h] at hr
    injection hr with hr
    subst hr
    rcases (by omega : side = 0 ∨ side = 1 ∨ side = 2 ∨ side = 3) with
      rfl | rfl | rfl | rfl
    · rw [show getIdx st 0 = st.idx0 from rfl]
      cases st.idx0 <;> rfl
    · rw [show getIdx st 1 = st.idx1 from rfl]
      cases st.idx1 <;> rfl
    · rw [show getIdx st 2 = st.idx2 from rfl]
      cases st.idx2 <;> rfl
    · rw [show getIdx st 3 = st.idx3 from rfl]
      cases st.idx3 <;> rfl
  · rw [if_neg h] at hr
    cases hr

theorem remove_items {st : RState} {o : Nat} {st' : RState}
    (hr : remove st o = Except.ok st') : st'.items = delKey st.items o := by
  rw [remove] at hr
  by_cases h : containsObj st o
  · rw [if_pos h] at hr
    injection hr with hr
    subst hr
    rfl
  · rw [if_neg h] at hr
    cases hr

theorem remove_goodState {st : RState} {o : Nat} {st' : RState}
    (h : goodState st) (hr : remove st o = Except.ok st') : goodState st' := by
  have hitems := remove_items hr
  constructor
  · rw [hitems, keys_delKey]
    exact List.Nodup.sublist (List.erase_sublist _ _) h.1
  · intro side hlt
    rw [getIdx_remove hr side hlt, hitems]
    cases hq : getIdx st side with
    | none => exact trivial
    | some q =>
      have hgood := h.2 side hlt
      rw [hq] at hgood
      obtain ⟨hperm, hmap, hsort⟩ := hgood
      have hnd : q.objects.Nodup := hperm.nodup_iff.2 h.1
      have herase : q.objects.eraseIdx (List.indexOf o q.objects) =
          q.objects.erase o := eraseIdx_indexOf_eq_erase q.objects o
      refine ⟨?_, ?_, ?_⟩
      · show (q.objects.eraseIdx (List.indexOf o q.objects)).Perm
          (keys (delKey st.items o))
        rw [herase, keys_delKey]
        exact hperm.erase o
      · show q.indices.eraseIdx (List.indexOf o q.objects) =
          (q.objects.eraseIdx (List.indexOf o q.objects)).map
            (gfun (delKey st.items o) side)
        rw [hmap, ← map_eraseIdx, herase]
        apply List.map_congr_left
        intro o' ho'
        have hne : o' ≠ o := ((List.Nodup.mem_erase_iff hnd).1 ho').1
        simp only [gfun, coordsOf]
        rw [lookup_delKey_ne hne]
      · show (q.indices.eraseIdx (List.indexOf o q.objects)).Sorted (· ≤ ·)
        rw [hmap, ← map_eraseIdx]
        have hsub := List.eraseIdx_sublist q.objects
          (List.indexOf o q.objects)
        rw [hmap] at hsort
        exact List.Pairwise.sublist (hsub.map (gfun st.items side)) hsort

theorem keys_dictInsert_nodup {items : List (Nat × Coords)} {o : Nat}
    {c : Coords} (h : (keys items).Nodup) :
    (keys (dictInsert items o c)).Nodup := by
  rw [dictInsert]
  by_cases hl : (List.lookup o items).isSome
  · rw [if_pos hl]
    have heq : keys (items.map (fun e => if e.1 = o then (o, c) else e)) =
        keys items := by
      rw [keys, keys, List.map_map]
      apply List.map_congr_left
      intro e _
      by_cases h1 : e.1 = o <;> simp [Function.comp, h1]
    rw [heq]
    exact h
  · rw [if_neg hl]
    rw [keys, List.map_append]
    have hno : o ∉ keys items := by
      rw [mem_keys_iff_lookup]
      simpa using hl
    refine List.Nodup.append h (List.nodup_singleton o) ?_
    intro a ha hb
    simp only [List.map_cons, List.map_nil, List.mem_singleton] at hb
    exact hno (hb ▸ ha)

theorem bulk_add_goodState {f : Nat → Coords} {st : RState}
    {objs : List Nat} (h : goodState st) : goodState (bulk_add f st objs) := by
  constructor
  · have key : ∀ (l : List Nat) (acc : List (Nat × Coords)),
        (keys acc).Nodup →
        (keys (l.foldl (fun acc o => dictInsert acc o (f o)) acc)).Nodup := by
      intro l
      induction l with
      | nil => exact fun acc h => h
      | cons a t ih =>
        intro acc hacc
        exact ih _ (keys_dictInsert_nodup hacc)
    exact key objs st.items h.1
  · intro side hlt
    have hnone : getIdx (bulk_add f st objs) side = none := by
      rcases (by omega : side = 0 ∨ side = 1 ∨ side = 2 ∨ side = 3) with
        rfl | rfl | rfl | rfl <;> rfl
    rw [hnone]
    exact trivial

theorem clear_goodState (st : RState) : goodState (clearAll st) := by
  constructor
  · exact List.nodup_nil
  · intro side hlt
    have hnone : getIdx (clearAll st) side = none := by
      rcases (by omega : side = 0 ∨ side = 1 ∨ side = 2 ∨ side = 3) with
        rfl | rfl | rfl | rfl <;> rfl
    rw [hnone]
    exact trivial

/-! ### Totality of nearest on a non-empty index -/

theorem mem_rmid {st : RState} (h : goodState st) (y : ℚ) (o : ℕ) :
    o ∈ testAll st [(Meth.smaller, sideTop, y), (Meth.larger, sideBottom, y)] ↔
      o ∈ keys st.items ∧ gfun st.items sideTop o ≤ y ∧
        y ≤ gfun st.items sideBottom o := by
  rw [mem_testAll_cons]
  simp only [List.forall_mem_cons, List.mem_toFinset]
  rw [show runTest st (Meth.smaller, sideTop, y) = smallerFn st sideTop y from rfl,
    show runTest st (Meth.larger, sideBottom, y) = largerFn st sideBottom y from rfl,
    mem_smallerFn h (by decide) y o, mem_largerFn h (by decide) y o]
  constructor
  · rintro ⟨⟨hk, ha⟩, ⟨-, hb⟩, -⟩
    exact ⟨hk, ha, hb⟩
  · rintro ⟨hk, ha, hb⟩
    exact ⟨⟨hk, ha⟩, ⟨hk, hb⟩, by simp⟩

theorem mem_cmid {st : RState} (h : goodState st) (x : ℚ) (o : ℕ) :
    o ∈ testAll st [(Meth.smaller, sideLeft, x), (Meth.larger, sideRight, x)] ↔
      o ∈ keys st.items ∧ gfun st.items sideLeft o ≤ x ∧
        x ≤ gfun st.items sideRight o := by
  rw [mem_testAll_cons]
  simp only [List.forall_mem_cons, List.mem_toFinset]
  rw [show runTest st (Meth.smaller, sideLeft, x) = smallerFn st sideLeft x from rfl,
    show runTest st (Meth.larger, sideRight, x) = largerFn st sideRight x from rfl,
    mem_smallerFn h (by decide) x o, mem_largerFn h (by decide) x o]
  constructor
  · rintro ⟨⟨hk, ha⟩, ⟨-, hb⟩, -⟩
    exact ⟨hk, ha, hb⟩
  · rintro ⟨hk, ha, hb⟩
    exact ⟨⟨hk, ha⟩, ⟨hk, hb⟩, by simp⟩

theorem filterPair_ne_none (dist : Nat → ℚ) (s : Finset ℕ) (o : ℕ)
    (ho : o ∈ s) :
    (if s = ∅ then none else minPairOver dist (s.sort (· ≤ ·))) ≠ none := by
  have hne : s ≠ ∅ := Finset.ne_empty_of_mem ho
  rw [if_neg hne]
  have hmem : o ∈ s.sort (· ≤ ·) := Finset.mem_sort _ |>.2 ho
  have hsn : s.sort (· ≤ ·) ≠ [] := List.ne_nil_of_mem hmem
  rw [minPairOver]
  cases hs : s.sort (· ≤ ·) with
  | nil => exact absurd hs hsn
  | cons a t => simp [minPairList]

theorem minPairList_map_snd_isSome (l : List (ℚ × Nat)) (h : l ≠ []) :
    ∃ o, (minPairList l).map Prod.snd = some o := by
  cases l with
  | nil => exact absurd rfl h
  | cons a t => exact ⟨_, rfl⟩

theorem nearest_total {st : RState} (h : goodState st) (x y : ℚ)
    (hne : st.items ≠ []) : ∃ o, nearest st x y = some o := by
  simp only [nearest]
  by_cases hmid :
      testAll st [(Meth.smaller, sideTop, y), (Meth.larger, sideBottom, y)] ∩
        testAll st [(Meth.smaller, sideLeft, x), (Meth.larger, sideRight, x)] = ∅
  · rw [if_pos hmid]
    obtain ⟨e, he⟩ := List.exists_mem_of_ne_nil st.items hne
    rcases e with ⟨o₀, c⟩
    have hc : List.lookup o₀ st.items = some c := lookup_eq_some_of_mem h.1 he
    have hk : o₀ ∈ keys st.items := by
      rw [mem_keys_iff_lookup, hc]; rfl
    have hcoords : coordsOf st.items o₀ = c := by rw [coordsOf, hc]; rfl
    have hg0 : gfun st.items sideLeft o₀ = c.left := by
      simp only [gfun]; rw [hcoords]; rfl
    have hg1 : gfun st.items sideTop o₀ = c.top := by
      simp only [gfun]; rw [hcoords]; rfl
    have hg2 : gfun st.items sideRight o₀ = c.right := by
      simp only [gfun]; rw [hcoords]; rfl
    have hg3 : gfun st.items sideBottom o₀ = c.bottom := by
      simp only [gfun]; rw [hcoords]; rfl
    have hrmid : (c.top ≤ y ∧ y ≤ c.bottom) → o₀ ∈
        testAll st [(Meth.smaller, sideTop, y), (Meth.larger, sideBottom, y)] :=
      fun hh => (mem_rmid h y o₀).2 ⟨hk, by rw [hg1]; exact hh.1,
        by rw [hg3]; exact hh.2⟩
    have hcmid : (c.left ≤ x ∧ x ≤ c.right) → o₀ ∈
        testAll st [(Meth.smaller, sideLeft, x), (Meth.larger, sideRight, x)] :=
      fun hh => (mem_cmid h x o₀).2 ⟨hk, by rw [hg0]; exact hh.1,
        by rw [hg2]; exact hh.2⟩
    have hcleft : x ≤ c.left → o₀ ∈ (largerFn st sideLeft x).toFinset :=
      fun hh => List.mem_toFinset.2 ((mem_largerFn h (by decide) x o₀).2
        ⟨hk, by rw [hg0]; exact hh⟩)
    have hcright : c.right ≤ x → o₀ ∈ (smallerFn st sideRight x).toFinset :=
      fun hh => List.mem_toFinset.2 ((mem_smallerFn h (by decide) x o₀).2
        ⟨hk, by rw [hg2]; exact hh⟩)
    have hrtop : y ≤ c.top → o₀ ∈ (largerFn st sideTop y).toFinset :=
      fun hh => List.mem_toFinset.2 ((mem_largerFn h (by decide) y o₀).2
        ⟨hk, by rw [hg1]; exact hh⟩)
    have hrbottom : c.bottom ≤ y → o₀ ∈ (smallerFn st sideBottom y).toFinset :=
      fun hh => List.mem_toFinset.2 ((mem_smallerFn h (by decide) y o₀).2
        ⟨hk, by rw [hg3]; exact hh⟩)
    apply minPairList_map_snd_isSome
    rw [Ne, List.filterMap_eq_nil_iff]
    intro hall
    by_cases hLx : c.left ≤ x
    · by_cases hRx : x ≤ c.right
      · by_cases hTy : c.top ≤ y
        · by_cases hBy : y ≤ c.bottom
          · have hm : o₀ ∈ (∅ : Finset ℕ) := by
              rw [← hmid]
              exact Finset.mem_inter.2 ⟨hrmid ⟨hTy, hBy⟩, hcmid ⟨hLx, hRx⟩⟩
            simp at hm
          · exact filterPair_ne_none _ _ o₀
              (Finset.mem_inter.2
                ⟨hrbottom (le_of_lt (not_le.1 hBy)), hcmid ⟨hLx, hRx⟩⟩)
              (hall _ (List.mem_cons_of_mem _ (List.mem_cons_of_mem _
                (List.mem_cons_of_mem _ (List.mem_cons_self _ _)))))
        · exact filterPair_ne_none _ _ o₀
            (Finset.mem_inter.2
              ⟨hrtop (le_of_lt (not_le.1 hTy)), hcmid ⟨hLx, hRx⟩⟩)
            (hall _ (List.mem_cons_of_mem _ (List.mem_cons_of_mem _
              (List.mem_cons_self _ _))))
      · by_cases hTy : c.top ≤ y
        · by_cases hBy : y ≤ c.bottom
          · exact filterPair_ne_none _ _ o₀
              (Finset.mem_inter.2
                ⟨hcright (le_of_lt (not_le.1 hRx)), hrmid ⟨hTy, hBy⟩⟩)
              (hall _ (List.mem_cons_of_mem _ (List.mem_cons_self _ _)))
          · exact filterPair_ne_none _ _ o₀
              (Finset.mem_inter.2
                ⟨hcright (le_of_lt (not_le.1 hRx)),
                  hrbottom (le_of_lt (not_le.1 hBy))⟩)
              (hall _ (List.mem_cons_of_mem _ (List.mem_cons_of_mem _
                (List.mem_cons_of_mem _ (List.mem_cons_of_mem _
                  (List.mem_cons_of_mem _ (List.mem_cons_of_mem _
                    (List.mem_cons_of_mem _ (List.mem_cons_self _ _)))))))))
        · exact filterPair_ne_none _ _ o₀
            (Finset.mem_inter.2
              ⟨hcright (le_of_lt (not_le.1 hRx)),
                hrtop (le_of_lt (not_le.1 hTy))⟩)
            (hall _ (List.mem_cons_of_mem _ (List.mem_cons_of_mem _
              (List.mem_cons_of_mem _ (List.mem_cons_of_mem _
                (List.mem_cons_of_mem _ (List.mem_cons_self _ _)))))))
    · by_cases hTy : c.top ≤ y
      · by_cases hBy : y ≤ c.bottom
        · exact filterPair_ne_none _ _ o₀
            (Finset.mem_inter.2
              ⟨hcleft (le_of_lt (not_le.1 hLx)), hrmid ⟨hTy, hBy⟩⟩)
            (hall _ (List.mem_cons_self _ _))
        · exact filterPair_ne_none _ _ o₀
            (Finset.mem_inter.2
              ⟨hcleft (le_of_lt (not_le.1 hLx)),
                hrbottom (le_of_lt (not_le.1 hBy))⟩)
            (hall _ (List.mem_cons_of_mem _ (List.mem_cons_of_mem _
              (List.mem_cons_of_mem _ (List.mem_cons_of_mem _
                (List.mem_cons_of_mem _ (List.mem_cons_of_mem _
                  (List.mem_cons_self _ _))))))))
      · exact filterPair_ne_none _ _ o₀
          (Finset.mem_inter.2
            ⟨hcleft (le_of_lt (not_le.1 hLx)),
              hrtop (le_of_lt (not_le.1 hTy))⟩)
          (hall _ (List.mem_cons_of_mem _ (List.mem_cons_of_mem _
            (List.mem_cons_of_mem _ (List.mem_cons_of_mem _
              (List.mem_cons_self _ _))))))
  · rw [if_neg hmid]
    obtain ⟨a, ha⟩ := Finset.nonempty_iff_ne_empty.2 hmid
    have hmem : a ∈ (testAll st [(Meth.smaller, sideTop, y),
        (Meth.larger, sideBottom, y)] ∩
        testAll st [(Meth.smaller, sideLeft, x),
          (Meth.larger, sideRight, x)]).sort (· ≤ ·) :=
      (Finset.mem_sort _).2 ha
    have hsn := List.ne_nil_of_mem hmem
    cases hs : (testAll st [(Meth.smaller, sideTop, y),
        (Meth.larger, sideBottom, y)] ∩
        testAll st [(Meth.smaller, sideLeft, x),
          (Meth.larger, sideRight, x)]).sort (· ≤ ·) with
    | nil => exact absurd hs hsn
    | cons b tl => exact ⟨_, rfl⟩

theorem goodState_claimInvariant {st : RState} (h : goodState st) :
    claimInvariant st := by
  intro side hlt p hp
  have hgood := h.2 side hlt
  rw [hp] at hgood
  obtain ⟨hperm, hmap, hsort⟩ := hgood
  have hlen2 : p.objects.length = sizeQ st := by
    rw [hperm.length_eq, keys, List.length_map, sizeQ]
  refine ⟨?_, hlen2, ?_, hsort⟩
  · rw [hmap, List.length_map, hlen2]
  · intro o
    exact hperm.mem_iff

/-! ### The claims -/

unseal List.mergeSort List.merge Rat.add Rat.sub Rat.mul Rat.inv in
/-- C1, counterexample: with exactly A = object 0 = (0, 0, 10, 10) and
B = object 1 = (20, 20, 30, 30) managed, `closest(A, Right)` does NOT return
"no object" (the claim asserts it does, because B's cross-axis center offset
20 is not less than the along-axis gap 10). -/
theorem C1_counterexample : closest stAB 0 sideRight ≠ Except.ok none := by
  decide

unseal List.mergeSort List.merge Rat.add Rat.sub Rat.mul Rat.inv in
/-- C1, amended: `closest(A, Right)` returns B.  The code measures the
along-axis distance between the two objects' anchor coordinates
(`coords[side^2]`, the Left edges here), giving `d = 20`, and its lateral
term is built from `(coords[side^1|2] - coords[side^1&2]) / 2` — with
Python's precedence `side^1&2 = side` — giving `dlat = 0` for these two
same-size squares; since `dlat < d` the candidate B is accepted and
returned, rather than rejected by a center-offset versus gap test. -/
theorem C1_closest_accepts_B :
    closest stAB 0 sideRight = Except.ok (some 1) ∧
    dVal stAB.items sideRight
      (coord (coordsOf stAB.items 0) (sideRight ^^^ 2)) 1 = 20 ∧
    dlatVal stAB.items sideRight
      ((coord (coordsOf stAB.items 0) (sideRight ^^^ 1 ||| 2) -
        coord (coordsOf stAB.items 0) (sideRight ^^^ 1 &&& 2)) / 2) 1 = 0 ∧
    dlatVal stAB.items sideRight
      ((coord (coordsOf stAB.items 0) (sideRight ^^^ 1 ||| 2) -
        coord (coordsOf stAB.items 0) (sideRight ^^^ 1 &&& 2)) / 2) 1 <
      dVal stAB.items sideRight
        (coord (coordsOf stAB.items 0) (sideRight ^^^ 2)) 1 := by
  refine ⟨by decide, by decide, by decide, by decide⟩

unseal List.mergeSort List.merge in
/-- C2, counterexample: in a state whose Left side index is built and holds
objects 0 and 1, both with Left coordinate 0, adding object 2 (also with
Left coordinate 0) places its entry at the FRONT of the equal-valued run
(`bisect_left`), producing objects `[2, 0, 1]` — not after the existing
equal entries as the claim requires (which would give `[0, 1, 2]`). -/
theorem C2_counterexample :
    getIdx (add fC2 stC2 2) 0 = some ⟨[0, 0, 0], [2, 0, 1]⟩ ∧
    (getIdx (add fC2 stC2 2) 0).map SideData.objects ≠ some [0, 1, 2] := by
  exact ⟨by decide, by decide⟩

/-- C2, amended: for every state satisfying the index invariant and every
not-yet-managed object, `add` inserts the object's entry into each present
side index at the leftmost insertion point — strictly after the entries
below its coordinate and BEFORE all existing equal-valued entries — and the
index stays sorted. -/
theorem C2_add_inserts_before_ties (f : Nat → Coords) (st : RState) (o : Nat)
    (side : Nat) (p : SideData) (h : goodState st)
    (hno : containsObj st o = false) (hlt : side < 4)
    (hp : getIdx st side = some p) :
    getIdx (add f st o) side = some
      ⟨listInsert p.indices (bisect_left p.indices (coord (f o) side))
          (coord (f o) side),
        listInsert p.objects (bisect_left p.indices (coord (f o) side)) o⟩ ∧
    (∀ q ∈ p.indices.take (bisect_left p.indices (coord (f o) side)),
        q < coord (f o) side) ∧
    (∀ q ∈ p.indices.drop (bisect_left p.indices (coord (f o) side)),
        coord (f o) side ≤ q) ∧
    (listInsert p.indices (bisect_left p.indices (coord (f o) side))
        (coord (f o) side)).Sorted (· ≤ ·) := by
  have hgood := h.2 side hlt
  rw [hp] at hgood
  obtain ⟨-, -, hsort⟩ := hgood
  refine ⟨?_, take_bisect_left_lt _ _, sorted_drop_bisect_left_ge _ _ hsort,
    insert_bisect_left_sorted _ _ hsort⟩
  rw [getIdx_add hno side hlt, hp]
  rfl

unseal List.mergeSort List.merge in
/-- C2, witness: the amended statement applied to the concrete state whose
Left index holds coordinates `[0, 0]` for objects `[0, 1]`; adding object 2
with Left coordinate 0 yields coordinates `[0, 0, 0]` and objects
`[2, 0, 1]`. -/
theorem C2_witness :
    goodState stC2 ∧ containsObj stC2 2 = false ∧
      getIdx stC2 0 = some ⟨[0, 0], [0, 1]⟩ ∧
      getIdx (add fC2 stC2 2) 0 = some ⟨[0, 0, 0], [2, 0, 1]⟩ := by
  refine ⟨by decide, by decide, by decide, ?_⟩
  have h := (C2_add_inserts_before_ties fC2 stC2 2 0 ⟨[0, 0], [0, 1]⟩
    (by decide) (by decide) (by decide) (by decide)).1
  rw [h]
  decide

/-- C3, counterexample: on the empty index, `closest` does not succeed: its
first step `self._items[obj]` raises `KeyError` because its object argument
is necessarily unmanaged, contradicting the claim that all five query
methods succeed on an empty index. -/
theorem C3_counterexample : closest emptyState 0 sideRight =
    Except.error () := by decide

/-- C3, amended: on the empty index, `at`, `inside` and `intersecting`
return the empty set and `nearest` returns "no object" for all arguments,
but `closest` fails with a "not found" error for every object argument,
since no object is managed. -/
theorem C3_empty_queries (x y l t r b : ℚ) (o side : Nat) :
    atQ emptyState x y = ∅ ∧ insideQ emptyState l t r b = ∅ ∧
    intersectingQ emptyState l t r b = ∅ ∧ nearest emptyState x y = none ∧
    closest emptyState o side = Except.error () := by
  refine ⟨?_, ?_, ?_, ?_, ?_⟩
  · simp [atQ, testAll, runTest, smallerFn, largerFn, sortedFor, getIdx,
      buildSide, emptyState, bisect_right, bisect_left, sideTop, sideBottom,
      sideLeft, sideRight]
  · simp [insideQ, testAll, runTest, smallerFn, largerFn, sortedFor, getIdx,
      buildSide, emptyState, bisect_right, bisect_left, sideTop, sideBottom,
      sideLeft, sideRight]
  · simp [intersectingQ, testAll, runTest, smallerFn, largerFn, sortedFor,
      getIdx, buildSide, emptyState, bisect_right, bisect_left, sideTop,
      sideBottom, sideLeft, sideRight]
  · simp [nearest, testAll, runTest, smallerFn, largerFn, sortedFor, getIdx,
      buildSide, emptyState, bisect_right, bisect_left, minPairList, sideTop,
      sideBottom, sideLeft, sideRight]
  · simp [closest, emptyState, List.lookup]

/-- C4: on every state satisfying the index invariant, `at(x, y)` contains
an object exactly when its stored rectangle satisfies `top ≤ y`,
`bottom ≥ y`, `left ≤ x` and `right ≥ x`, boundaries included; the result
is a finite set (unordered and duplicate-free by construction). -/
theorem C4_at_exact {st : RState} (h : goodState st) (x y : ℚ) (o : ℕ) :
    o ∈ atQ st x y ↔ ∃ c, List.lookup o st.items = some c ∧
      c.top ≤ y ∧ y ≤ c.bottom ∧ c.left ≤ x ∧ x ≤ c.right :=
  mem_atQ h x y o

/-- C4, witness: the characterization evaluated at the worked example:
`at(5, 5)` contains object A = 0. -/
theorem C4_witness :
    goodState stAB ∧ ((0 ∈ atQ stAB 5 5) ↔ ∃ c,
      List.lookup 0 stAB.items = some c ∧ c.top ≤ 5 ∧ (5 : ℚ) ≤ c.bottom ∧
      c.left ≤ 5 ∧ (5 : ℚ) ≤ c.right) :=
  ⟨by decide, C4_at_exact (by decide) 5 5 0⟩

/-- C5: every operation — `add`, `bulk_add`, `remove`, `clear`, and the
index-building cache write every query performs — preserves the invariant
that each present side index has exactly as many entries as the item store
(in both parallel lists), describes exactly the same object set, and keeps
its coordinate sequence sorted non-decreasingly. -/
theorem C5_invariant_preserved (f : Nat → Coords) (st : RState) (o : Nat)
    (objs : List Nat) (side : Nat) (h : goodState st) :
    claimInvariant (add f st o) ∧ claimInvariant (bulk_add f st objs) ∧
    (∀ st', remove st o = Except.ok st' → claimInvariant st') ∧
    claimInvariant (clearAll st) ∧ claimInvariant (ensure st side) :=
  ⟨goodState_claimInvariant (add_goodState h),
    goodState_claimInvariant (bulk_add_goodState h),
    fun _ hr => goodState_claimInvariant (remove_goodState h hr),
    goodState_claimInvariant (clear_goodState st),
    goodState_claimInvariant (ensure_goodState h side)⟩

/-- C5, witness: the preservation statement applied to the worked example
state. -/
theorem C5_witness : goodState stAB ∧ claimInvariant (add fAB stAB 5) :=
  ⟨by decide, (C5_invariant_preserved fAB stAB 5 [] 0 (by decide)).1⟩

/-- C6: `remove(obj)` fails with a "not found" error exactly when the
object is not in the item store.  In the embedding the error is produced
before any new state is constructed — mirroring Python, where
`del self._items[obj]` raises before any mutation — so a failed call leaves
the caller's state untouched. -/
theorem C6_remove_not_found (st : RState) (o : Nat) :
    remove st o = Except.error () ↔ containsObj st o = false :=
  remove_not_found st o

/-- C7: on every invariant-satisfying state with at least one managed
object, all of whose rectangles are proper (`left < right`,
`top < bottom`), `nearest(x, y)` returns some object and never "no
object": every managed object lands in the containing set or one of the
eight edge/corner candidate sets. -/
theorem C7_nearest_total (st : RState) (x y : ℚ) (h : goodState st)
    (hne : st.items ≠ []) (_hprop : properItems st.items) :
    ∃ o, nearest st x y = some o :=
  nearest_total h x y hne

/-- C7, witness: the worked-example state is non-empty with proper
rectangles, so `nearest(15, 15)` returns an object. -/
theorem C7_witness :
    goodState stAB ∧ stAB.items ≠ [] ∧ properItems stAB.items ∧
      ∃ o, nearest stAB 15 15 = some o :=
  ⟨by decide, by decide, by decide,
    C7_nearest_total stAB 15 15 (by decide) (by decide) (by decide)⟩

/-- C8: `add` is idempotent — after a first `add(o)` the object is managed,
so a second `add(o)` takes the early-return branch and the state (item
store, every side index, and hence every subsequent query result) is
exactly the state after the first call; `get_coords` is consulted only on
the first call since the second never reaches the coordinate computation. -/
theorem C8_add_idempotent (f : Nat → Coords) (st : RState) (o : Nat) :
    add f (add f st o) o = add f st o := by
  by_cases h : containsObj (add f st o) o
  · exact add_of_contains h
  · exact absurd (contains_add_self f st o) h

/-- C9: on every invariant-satisfying state whose stored rectangles are all
proper (`left < right`, `top < bottom`), every object fully inside the
query rectangle also intersects it: `inside(l, t, r, b)` is a subset of
`intersecting(l, t, r, b)`. -/
theorem C9_inside_subset_intersecting (st : RState) (l t r b : ℚ)
    (h : goodState st) (hprop : properItems st.items) :
    insideQ st l t r b ⊆ intersectingQ st l t r b := by
  intro o ho
  rw [mem_insideQ h] at ho
  obtain ⟨c, hc, h1, h2, h3, h4⟩ := ho
  have hp := hprop (o, c) (mem_of_lookup_eq_some hc)
  rw [mem_intersectingQ h]
  exact ⟨c, hc, le_trans (le_of_lt hp.2) h2, le_trans h1 (le_of_lt hp.2),
    le_trans (le_of_lt hp.1) h4, le_trans h3 (le_of_lt hp.1)⟩

/-- C9, witness: the subset relation applied to the worked example with the
query rectangle (5, 5, 25, 25). -/
theorem C9_witness :
    goodState stAB ∧ properItems stAB.items ∧
      insideQ stAB 5 5 25 25 ⊆ intersectingQ stAB 5 5 25 25 :=
  ⟨by decide, by decide,
    C9_inside_subset_intersecting stAB 5 5 25 25 (by decide) (by decide)⟩

/-- C10: the sets returned by `at`, `inside` and `intersecting` depend only
on the item store: any two invariant-satisfying states with the same item
store — for example one with no side index built (so the query triggers the
lazy build) and one with all four built and incrementally maintained —
yield exactly the same query results, so lazy building and caching are
observationally invisible to these queries. -/
theorem C10_queries_ignore_cache (st1 st2 : RState) (x y l t r b : ℚ)
    (h1 : goodState st1) (h2 : goodState st2)
    (heq : st1.items = st2.items) :
    atQ st1 x y = atQ st2 x y ∧
    insideQ st1 l t r b = insideQ st2 l t r b ∧
    intersectingQ st1 l t r b = intersectingQ st2 l t r b := by
  refine ⟨?_, ?_, ?_⟩
  · apply Finset.ext
    intro o
    rw [mem_atQ h1, mem_atQ h2, heq]
  · apply Finset.ext
    intro o
    rw [mem_insideQ h1, mem_insideQ h2, heq]
  · apply Finset.ext
    intro o
    rw [mem_intersectingQ h1, mem_intersectingQ h2, heq]

unseal List.mergeSort List.merge in
/-- C10, witness: the worked-example state with no index built versus the
same item store with all four side indexes built by queries give the same
`at(5, 5)` result. -/
theorem C10_witness :
    goodState stAB ∧ goodState stABbuilt ∧ stAB.items = stABbuilt.items ∧
      atQ stAB 5 5 = atQ stABbuilt 5 5 :=
  ⟨by decide, by decide, by decide,
    (C10_queries_ignore_cache stAB stABbuilt 5 5 0 0 0 0 (by decide)
      (by decide) (by decide)).1⟩

end Rectangles
